import Mathlib

/-!
Verification of the fallback `strndup` from
`dicey-sys/libdicey/samples/util/include/util/strext.h`.

The C function is

    static inline char *strndup(const char *const str, const size_t maxlen) {
        const size_t len = strnlen(str, maxlen);
        char *const ret = malloc(len + 1);
        if (ret) {
            memcpy(ret, str, len);
            ret[len] = '\0';
        }
        return ret;
    }

We embed it shallowly: the input string is a read-only memory image
(`Mem`, a function from byte offset to byte value), the heap is the list
of buffers allocated so far, and the allocator is a function deciding
whether a request of a given size succeeds.  `strndup` returns the
(unchanged) input memory, the heap after the call, and the contents of
the freshly allocated buffer (`none` on allocation failure), making the
frame and failure behaviour of the C code explicit state passing.
-/

/-- A byte, modelled as a natural number; `0` is the C string terminator. -/
abbrev Byte := Nat

/-- A read-only memory image of the input string: the byte at each offset. -/
abbrev Mem := Nat → Byte

/-- The heap: the list of buffers allocated so far, each a byte list. -/
abbrev Heap := List (List Byte)

/-- An allocator: decides whether a request for a given number of bytes succeeds. -/
abbrev Alloc := Nat → Bool

/-- Embedding of the C library function `strnlen(str, maxlen)`: the number of
bytes before the first zero byte, scanning at most `maxlen` bytes. -/
def strnlen (str : Mem) (maxlen : Nat) : Nat :=
  match maxlen with
  | 0 => 0
  | m + 1 => if str 0 = 0 then 0 else strnlen (fun i => str (i + 1)) m + 1

/-- Embedding of the fallback `strndup` from `util/strext.h`: compute
`len = strnlen(str, maxlen)`, request `len + 1` bytes from the allocator;
on success the new buffer holds the first `len` bytes of `str` (`memcpy`)
followed by the written terminator (`ret[len] = 0`); on failure nothing is
written.  The result is `(input memory, heap after the call, buffer)`. -/
def strndup (alloc : Alloc) (heap : Heap) (str : Mem) (maxlen : Nat) :
    Mem × Heap × Option (List Byte) :=
  let len := strnlen str maxlen
  if alloc (len + 1) then
    let ret := (List.range len).map str ++ [0]
    (str, heap ++ [ret], some ret)
  else
    (str, heap, none)

/-- The size in bytes that `strndup` passes to `malloc`: `len + 1` where
`len = strnlen(str, maxlen)`. -/
def strndupRequest (str : Mem) (maxlen : Nat) : Nat :=
  strnlen str maxlen + 1

/-- The memory image of a zero-terminated C string with content bytes `s`:
offset `i` holds `s[i]` for `i < s.length` and the zero terminator beyond. -/
def memOfString (s : List Byte) : Mem :=
  fun i => s.getD i 0

/-- The content of a C string contains no zero byte (the terminator is
implicit, at offset `s.length` in `memOfString s`). -/
def zeroFree (s : List Byte) : Prop :=
  ∀ b ∈ s, b ≠ 0

instance (s : List Byte) : Decidable (zeroFree s) :=
  inferInstanceAs (Decidable (∀ b ∈ s, b ≠ 0))

/-- Modelled from the spec: the platform-provided standard `strndup`
primitive that the fallback substitutes (the platform library itself is not
part of the sources).  Per the spec it duplicates at most `n` content bytes
of the input string into a fresh zero-terminated buffer, returning a null
result exactly on allocation failure. -/
def strndup_std (alloc : Alloc) (s : List Byte) (n : Nat) : Option (List Byte) :=
  let content := s.take n
  if alloc (content.length + 1) then some (content ++ [0]) else none

/-- The byte content of the spec's concrete scenario input `"hello world"`. -/
def helloWorld : List Byte :=
  [104, 101, 108, 108, 111, 32, 119, 111, 114, 108, 100]

/-- The byte content of the spec's concrete scenario input `"hi"`. -/
def hiBytes : List Byte :=
  [104, 105]

section Helpers

theorem strnlen_le (str : Mem) (n : Nat) : strnlen str n ≤ n := by
  induction n generalizing str with
  | zero => simp [strnlen]
  | succ m ih =>
    simp only [strnlen]
    by_cases h : str 0 = 0
    · simp [h]
    · simp only [h, if_false]
      exact Nat.succ_le_succ (ih _)

theorem strnlen_agree (m1 m2 : Mem) (n : Nat) (h : ∀ i < n, m1 i = m2 i) :
    strnlen m1 n = strnlen m2 n := by
  induction n generalizing m1 m2 with
  | zero => simp [strnlen]
  | succ m ih =>
    have h0 : m1 0 = m2 0 := h 0 (Nat.succ_pos m)
    simp only [strnlen, h0]
    by_cases hz : m2 0 = 0
    · simp [hz]
    · simp only [hz, if_false]
      have := ih (fun i => m1 (i + 1)) (fun i => m2 (i + 1))
        (fun i hi => h (i + 1) (Nat.succ_lt_succ hi))
      omega

theorem memOfString_shift (a : Byte) (t : List Byte) :
    (fun i => memOfString (a :: t) (i + 1)) = memOfString t := by
  funext i
  simp [memOfString]

theorem strnlen_memOfString (B : Nat) :
    ∀ (s : List Byte), zeroFree s → strnlen (memOfString s) B = min s.length B := by
  induction B with
  | zero => intro s _; simp [strnlen]
  | succ m ih =>
    intro s hs
    cases s with
    | nil => simp [strnlen, memOfString]
    | cons a t =>
      have ha : a ≠ 0 := hs a (List.mem_cons_self a t)
      have h0 : memOfString (a :: t) 0 = a := by simp [memOfString]
      simp only [strnlen, h0, ha, if_false, memOfString_shift]
      rw [ih t (fun b hb => hs b (List.mem_cons_of_mem a hb))]
      simp [List.length_cons, Nat.succ_min_succ]

theorem range_map_memOfString (s : List Byte) (n : Nat) (h : n ≤ s.length) :
    (List.range n).map (memOfString s) = s.take n := by
  apply List.ext_getElem
  · simp [Nat.min_eq_left h]
  · intro i h1 h2
    have hi : i < n := by simpa using h1
    have his : i < s.length := Nat.lt_of_lt_of_le hi h
    simp [memOfString, List.getD_eq_getElem, his]

theorem take_min_length (s : List Byte) (B : Nat) :
    s.take (min s.length B) = s.take B := by
  rcases Nat.le_total s.length B with h | h
  · rw [Nat.min_eq_left h, List.take_of_length_le h, List.take_length]
  · rw [Nat.min_eq_right h]

theorem strndup_result (alloc : Alloc) (heap : Heap) (s : List Byte) (B : Nat)
    (hs : zeroFree s) :
    (strndup alloc heap (memOfString s) B).2.2 =
      if alloc (min s.length B + 1) then some (s.take B ++ [0]) else none := by
  have hlen := strnlen_memOfString B s hs
  have hbuf : (List.range (min s.length B)).map (memOfString s) = s.take B := by
    rw [range_map_memOfString s (min s.length B) (Nat.min_le_left _ _), take_min_length]
  by_cases h : alloc (min s.length B + 1)
  · simp [strndup, hlen, h, hbuf]
  · simp [strndup, hlen, h]

end Helpers

/-- C1: for every zero-terminated input string `S` and every bound `B ≥ 0`,
if allocation succeeds then the result of the bounded duplicator `strndup`
is a zero-terminated string whose content equals the first `min(len S, B)`
bytes of `S`, and whose length excluding the terminator never exceeds `B`. -/
theorem strndup_bounded_copy (alloc : Alloc) (heap : Heap) (s : List Byte) (B : Nat)
    (hs : zeroFree s) (buf : List Byte)
    (hok : (strndup alloc heap (memOfString s) B).2.2 = some buf) :
    buf = s.take (min s.length B) ++ [0] ∧ buf.length - 1 ≤ B := by
  rw [strndup_result alloc heap s B hs] at hok
  by_cases h : alloc (min s.length B + 1)
  · simp only [if_pos h, Option.some.injEq] at hok
    subst hok
    constructor
    · rw [take_min_length]
    · have : (s.take B).length ≤ B := by
        rw [List.length_take]
        exact Nat.min_le_left _ _
      simp only [List.length_append, List.length_cons, List.length_nil]
      omega
  · simp [if_neg h] at hok

theorem strndup_bounded_copy_witness :
    ([104, 101, 108, 108, 111, 0] : List Byte) =
      helloWorld.take (min helloWorld.length 5) ++ [0]
    ∧ ([104, 101, 108, 108, 111, 0] : List Byte).length - 1 ≤ 5 :=
  strndup_bounded_copy (fun _ => true) [] helloWorld 5 (by decide)
    [104, 101, 108, 108, 111, 0] (by rfl)

/-- C2: if the heap allocation fails then `strndup` returns a null result and
performs no writes: the input memory and the heap are returned unchanged.
Conversely, a null result only arises from allocation failure, so allocation
failure is the only failure mode. -/
theorem strndup_alloc_failure (alloc : Alloc) (heap : Heap) (str : Mem) (B : Nat) :
    (alloc (strnlen str B + 1) = false → strndup alloc heap str B = (str, heap, none))
    ∧ ((strndup alloc heap str B).2.2 = none → alloc (strnlen str B + 1) = false) := by
  constructor
  · intro h
    simp [strndup, h]
  · intro h
    by_cases ha : alloc (strnlen str B + 1)
    · simp [strndup, ha] at h
    · simpa using ha

theorem strndup_alloc_failure_witness :
    strndup (fun _ => false) [] (memOfString helloWorld) 5 =
      (memOfString helloWorld, [], none) :=
  (strndup_alloc_failure (fun _ => false) [] (memOfString helloWorld) 5).1 rfl

/-- C3: for every input string `S` and bound `B` with `len S ≤ B`, a successful
`strndup` call returns the full original content of `S`, terminator included;
the right-hand side does not mention `B`, so the result is independent of how
much larger the bound is. -/
theorem strndup_full_copy (alloc : Alloc) (heap : Heap) (s : List Byte) (B : Nat)
    (hs : zeroFree s) (hB : s.length ≤ B) (buf : List Byte)
    (hok : (strndup alloc heap (memOfString s) B).2.2 = some buf) :
    buf = s ++ [0] := by
  rw [strndup_result alloc heap s B hs] at hok
  by_cases h : alloc (min s.length B + 1)
  · simp only [if_pos h, Option.some.injEq] at hok
    rw [← hok, List.take_of_length_le hB]
  · simp [if_neg h] at hok

theorem strndup_full_copy_witness :
    ([104, 105, 0] : List Byte) = hiBytes ++ [0] :=
  strndup_full_copy (fun _ => true) [] hiBytes 10 (by decide) (by decide)
    [104, 105, 0] (by rfl)

/-- C4: for every input string, calling `strndup` with bound `0` yields a
zero-length result consisting of just the terminator byte — never a null
result — assuming the allocation of one byte succeeds. -/
theorem strndup_zero_bound (alloc : Alloc) (heap : Heap) (str : Mem)
    (hok : alloc 1 = true) :
    (strndup alloc heap str 0).2.2 = some [0] := by
  simp [strndup, strnlen, hok]

theorem strndup_zero_bound_witness :
    (strndup (fun _ => true) [] (memOfString helloWorld) 0).2.2 = some [0] :=
  strndup_zero_bound (fun _ => true) [] (memOfString helloWorld) rfl

/-- C5: the length computation of `strndup` is a bounded scan: `strnlen`
examines at most `B` bytes of the input, so its result agrees on any two
memories that agree on the first `B` bytes — even when no zero terminator
appears among them — and the computed length never exceeds `B`. -/
theorem strnlen_bounded_scan (m1 m2 : Mem) (B : Nat) (h : ∀ i < B, m1 i = m2 i) :
    strnlen m1 B = strnlen m2 B ∧ strnlen m1 B ≤ B :=
  ⟨strnlen_agree m1 m2 B h, strnlen_le m1 B⟩

theorem strnlen_bounded_scan_witness :
    strnlen (fun _ => 1) 2 = strnlen (fun i => if i < 2 then 1 else 0) 2
    ∧ strnlen (fun _ => 1) 2 ≤ 2 :=
  strnlen_bounded_scan (fun _ => 1) (fun i => if i < 2 then 1 else 0) 2 (by decide)

/-- C6: for every input string `S` and bound `B`, `strndup` requests exactly
`min(len S, B) + 1` bytes from the heap allocator, and the call succeeds
precisely when the allocator grants a request of that size. -/
theorem strndup_request_size (alloc : Alloc) (heap : Heap) (s : List Byte) (B : Nat)
    (hs : zeroFree s) :
    strndupRequest (memOfString s) B = min s.length B + 1
    ∧ ((strndup alloc heap (memOfString s) B).2.2.isSome ↔
        alloc (strndupRequest (memOfString s) B) = true) := by
  have hlen := strnlen_memOfString B s hs
  constructor
  · simp [strndupRequest, hlen]
  · by_cases h : alloc (strnlen (memOfString s) B + 1)
    · simp [strndup, strndupRequest, h]
    · simp [strndup, strndupRequest, h]

theorem strndup_request_size_witness :
    strndupRequest (memOfString helloWorld) 5 = min helloWorld.length 5 + 1
    ∧ ((strndup (fun n => n == 6) [] (memOfString helloWorld) 5).2.2.isSome ↔
        (fun n => n == 6) (strndupRequest (memOfString helloWorld) 5) = true) :=
  strndup_request_size (fun n => n == 6) [] helloWorld 5 (by decide)

/-- C7: `strndup` does not mutate the input string and modifies no state other
than the one newly allocated buffer: the input memory is returned unchanged
and the heap after the call is the old heap with at most the fresh buffer
appended. -/
theorem strndup_frame (alloc : Alloc) (heap : Heap) (str : Mem) (B : Nat) :
    (strndup alloc heap str B).1 = str
    ∧ (strndup alloc heap str B).2.1 = heap ++ ((strndup alloc heap str B).2.2).toList := by
  by_cases h : alloc (strnlen str B + 1)
  · simp [strndup, h]
  · simp [strndup, h]

/-- C8: the fallback `strndup` is observationally equivalent to the
platform-provided standard primitive it substitutes (modelled from the spec
as `strndup_std`): for every input string and bound, both produce the same
content on allocation success and a null result on allocation failure. -/
theorem strndup_refines_std (alloc : Alloc) (heap : Heap) (s : List Byte) (B : Nat)
    (hs : zeroFree s) :
    (strndup alloc heap (memOfString s) B).2.2 = strndup_std alloc s B := by
  rw [strndup_result alloc heap s B hs]
  simp [strndup_std, List.length_take, Nat.min_comm]

theorem strndup_refines_std_witness :
    (strndup (fun _ => true) [] (memOfString hiBytes) 3).2.2 =
      strndup_std (fun _ => true) hiBytes 3 :=
  strndup_refines_std (fun _ => true) [] hiBytes 3 (by decide)

/-- C9: `strndup` is deterministic in its observable output: any two calls on
the same input string and bound in which allocation succeeds — even under
different allocators and different heap states — return byte-for-byte
identical buffer contents. -/
theorem strndup_deterministic (a1 a2 : Alloc) (h1 h2 : Heap) (str : Mem) (B : Nat)
    (b1 b2 : List Byte)
    (hb1 : (strndup a1 h1 str B).2.2 = some b1)
    (hb2 : (strndup a2 h2 str B).2.2 = some b2) :
    b1 = b2 := by
  by_cases c1 : a1 (strnlen str B + 1)
  · by_cases c2 : a2 (strnlen str B + 1)
    · simp only [strndup, if_pos c1, Option.some.injEq] at hb1
      simp only [strndup, if_pos c2, Option.some.injEq] at hb2
      rw [← hb1, ← hb2]
    · simp [strndup, c2] at hb2
  · simp [strndup, c1] at hb1

theorem strndup_deterministic_witness : ([104, 0] : List Byte) = [104, 0] :=
  strndup_deterministic (fun _ => true) (fun n => n != 0) [] [[5]]
    (memOfString [104]) 1 [104, 0] [104, 0] (by rfl) (by rfl)

/-- C10: the result of `strndup` is monotone in the bound: for bounds
`B ≤ B'`, if both calls succeed, the content returned for `B` (terminator
stripped) is a byte-for-byte prefix of the content returned for `B'`. -/
theorem strndup_monotone_bound (a1 a2 : Alloc) (h1 h2 : Heap) (s : List Byte)
    (B B' : Nat) (hs : zeroFree s) (hBB : B ≤ B') (b1 b2 : List Byte)
    (hb1 : (strndup a1 h1 (memOfString s) B).2.2 = some b1)
    (hb2 : (strndup a2 h2 (memOfString s) B').2.2 = some b2) :
    ∃ t, b1.dropLast ++ t = b2.dropLast := by
  rw [strndup_result a1 h1 s B hs] at hb1
  rw [strndup_result a2 h2 s B' hs] at hb2
  by_cases c1 : a1 (min s.length B + 1)
  · by_cases c2 : a2 (min s.length B' + 1)
    · simp only [if_pos c1, Option.some.injEq] at hb1
      simp only [if_pos c2, Option.some.injEq] at hb2
      subst hb1
      subst hb2
      refine ⟨(s.take B').drop B, ?_⟩
      have hdl : ∀ l : List Byte, (l ++ [0]).dropLast = l := by
        intro l
        simp
      rw [hdl, hdl]
      have h3 : (s.take B').take B = s.take B := by
        rw [List.take_take, Nat.min_eq_left hBB]
      conv_rhs => rw [← List.take_append_drop B (s.take B'), h3]
    · simp [if_neg c2] at hb2
  · simp [if_neg c1] at hb1

theorem strndup_monotone_bound_witness :
    ∃ t, ([104, 0] : List Byte).dropLast ++ t = ([104, 105, 0] : List Byte).dropLast :=
  strndup_monotone_bound (fun _ => true) (fun _ => true) [] [] hiBytes 1 2
    (by decide) (by decide) [104, 0] [104, 105, 0] (by rfl) (by rfl)
